import Mathlib

/-!
Verification of the chords parser (`plugins/chords/parser.py`).

The Python source is shallowly embedded below: every function is translated
into an executable Lean definition over `List Char` / `String`, machine
behaviour that can raise (IndexError, TypeError, NameError, SyntaxError,
AttributeError) is modelled with `Option` / `Except`, and mutation of the
token list is modelled by explicit state passing.
-/

namespace Chords

/-! ### Python string helpers

`str.strip` / `str.rstrip` strip whitespace, `str.split(sep)` keeps empty
fragments (`"".split("\n") == [""]`, `" a".split(" ") == ["", "a"]`).
-/

/-- Characters treated as whitespace by Python's `str.strip` / regex `\s`
(ASCII part plus the common Latin-1 whitespace). -/
def isPySpace (c : Char) : Bool :=
  c = ' ' || c = '\t' || c = '\n' || c = '\r' || c = '\x0b' || c = '\x0c' ||
  c = '\x1c' || c = '\x1d' || c = '\x1e' || c = '\x1f' || c = '\x85' || c = '\xa0'

/-- Python `str.strip()` on a character list. -/
def pyStripL (cs : List Char) : List Char :=
  ((cs.dropWhile isPySpace).reverse.dropWhile isPySpace).reverse

/-- Python `str.rstrip()` on a character list. -/
def pyRstripL (cs : List Char) : List Char :=
  (cs.reverse.dropWhile isPySpace).reverse

/-- Python `str.strip()`. -/
def pyStrip (s : String) : String := ⟨pyStripL s.data⟩

/-- Python `str.split(sep)` for a one-character separator: fragments between
separator occurrences, empty fragments kept, `[""]` on empty input. -/
def pySplitCh (sep : Char) : List Char → List (List Char)
  | [] => [[]]
  | c :: rest =>
    let ws := pySplitCh sep rest
    if c = sep then [] :: ws
    else (c :: ws.headD []) :: ws.tail

/-- Join the fragments back with the separator (inverse of `pySplitCh`). -/
def joinSp : List (List Char) → List Char
  | [] => []
  | [w] => w
  | w :: ws => w ++ ' ' :: joinSp ws

/-! ### The chord regex

`LineParser.chord = re.compile(r'\[(?P<v>[^\]]*)\]')`.  A match runs from a
`[` to the first `]` after it; matching is leftmost and non-overlapping, an
unclosed `[` matches nothing (and nothing after it can match either, since
no `]` remains).  Both the substitution and the match enumeration are
implemented as one-pass scanners whose state is `none` (outside a bracket)
or `some pending` (inside a bracket, pending characters reversed).

Note `real_init` and `clen` call `chord.sub('', v, re.UNICODE)`: the flag
`re.UNICODE` (= 32) is passed as the `count` argument, so at most 32 matches
are substituted.  The embedding keeps that behaviour (`count = 32`).
-/

/-- `chord.sub('', ·, count)`: drop up to `count` leftmost matches; an
unclosed `[` and everything after it is kept verbatim. -/
def subGo : Nat → Option (List Char) → List Char → List Char
  | _, none, [] => []
  | _, some p, [] => p.reverse
  | count, none, c :: rest =>
    if count ≠ 0 && c = '[' then subGo count (some [c]) rest
    else c :: subGo count none rest
  | count, some p, c :: rest =>
    if c = ']' then subGo (count - 1) none rest
    else subGo count (some (c :: p)) rest

/-- `LineParser.chord.sub('', s, count)`. -/
def chordSub (count : Nat) (s : String) : String := ⟨subGo count none s.data⟩

/-- Visible length of a chord-list fragment: `clen` from `break_chordline`
(length after `chord.sub('', v, re.UNICODE)`, i.e. `count = 32`). -/
def clenL (cs : List Char) : Nat := (subGo 32 none cs).length

/-- `clen` on strings. -/
def clen (s : String) : Nat := clenL s.data

/-- `chord.finditer`: the list of matches as `(start, end, group)`, positions
in characters, the group excluding the brackets. -/
def scanGo : Option (Nat × List Char) → Nat → List Char → List (Nat × Nat × String)
  | none, _, [] => []
  | some _, _, [] => []
  | none, pos, c :: rest =>
    if c = '[' then scanGo (some (pos, [])) (pos + 1) rest
    else scanGo none (pos + 1) rest
  | some (st, p), pos, c :: rest =>
    if c = ']' then (st, pos + 1, (⟨p.reverse⟩ : String)) :: scanGo none (pos + 1) rest
    else scanGo (some (st, c :: p)) (pos + 1) rest

/-- `LineParser.chord.finditer(s)`. -/
def chordFinditer (s : String) : List (Nat × Nat × String) := scanGo none 0 s.data

/-- whether a scan of `cs` started in state inside? ends outside a bracket. -/
def closedGo : Bool → List Char → Bool
  | st, [] => !st
  | false, c :: rest => if c = '[' then closedGo true rest else closedGo false rest
  | true, c :: rest => if c = ']' then closedGo false rest else closedGo true rest

/-- number of (unlimited-count) matches of the chord regex in the scan. -/
def mcGo : Bool → List Char → Nat
  | _, [] => 0
  | false, c :: rest => if c = '[' then mcGo true rest else mcGo false rest
  | true, c :: rest => if c = ']' then 1 + mcGo false rest else mcGo true rest

/-! ### `break_line` and `break_chordline` (lines 13-58) -/

/-- One step of the accumulation loop shared by `break_line` and
`break_chordline`; `rv` is the running `retval` with the **last** element
first, `measure` is `len` or `clen`. -/
def wrapStep (measure : List Char → Nat) (width : Int) (rv : List (List Char))
    (k : List Char) : List (List Char) :=
  match rv with
  | [] => [k]
  | last :: rest =>
    let rv2 := if (measure last : Int) < width then (last ++ [' ']) :: rest
               else [' '] :: last :: rest
    match rv2 with
    | [] => [k]
    | last2 :: rest2 =>
      if (measure last2 : Int) + (measure k : Int) ≤ width then (last2 ++ k) :: rest2
      else k :: last2 :: rest2

/-- final `[k.strip() for k in retval if k.strip()]`. -/
def stripKeep (l : List (List Char)) : List (List Char) :=
  l.filterMap fun w => let t := pyStripL w; if t = [] then none else some t

/-- `break_line(v, width)` (lines 13-31). -/
def break_line (v : String) (width : Int) : List String :=
  (stripKeep (((pySplitCh ' ' v.data).foldl (wrapStep List.length width) []).reverse)).map
    fun cs => (⟨cs⟩ : String)

/-- `break_chordline(v, width)` (lines 34-58): same loop measured with `clen`. -/
def break_chordline (v : String) (width : Int) : List String :=
  (stripKeep (((pySplitCh ' ' v.data).foldl (wrapStep clenL width) []).reverse)).map
    fun cs => (⟨cs⟩ : String)

/-! ### `ChordLine.real_init` (lines 90-103) -/

/-- The offset computation of `real_init`: for each match emit
`(start - subtract, group)` with `subtract` reassigned to
`end + (end - start) - 2` after every match. -/
def offsetsAux : Int → List (Nat × Nat × String) → List (Int × String)
  | _, [] => []
  | sub, (st, en, g) :: rest =>
    ((st : Int) - sub, g) :: offsetsAux ((en : Int) + ((en : Int) - (st : Int)) - 2) rest

/-- The collision pass of `real_init`: every non-first offset `≤ 0` is forced
to `1` (each fix reads the original snapshot `to_append[1:]`). -/
def fixOffsets : List (Int × String) → List (Int × String)
  | [] => []
  | h :: t => h :: t.map fun p => if p.1 ≤ 0 then ((1 : Int), p.2) else p

/-- The chord list a `ChordLine` built from raw text `v` carries. -/
def chordsOf (v : String) : List (Int × String) :=
  fixOffsets (offsetsAux 0 (chordFinditer v))

/-- The bare text a `ChordLine` built from raw text `v` carries
(`chord.sub('', v, re.UNICODE)`, i.e. `count = 32`). -/
def bareText (v : String) : String := chordSub 32 v

/-! ### Token nodes (lines 61-412)

One constructor per line-level Python class.  `ChordLine` stores the raw
line; its `bare` / `chords` fields are the pure functions `bareText` /
`chordsOf` of that raw line (computed once in `__init__`).  The class
hierarchy is reflected by the predicates below (`HashComment` is an
`EmptyLine`, `ChordLine` is a `Line`, the six directives are `Command`s).
-/

inductive Node where
  | empty (lineno : Nat)
  | hash (text : String) (lineno : Nat)
  | line (text : String) (lineno : Nat)
  | chordline (text : String) (lineno : Nat)
  | soc (lineno : Nat)
  | eoc (lineno : Nat)
  | sot (lineno : Nat)
  | eot (lineno : Nat)
  | comment (value : String) (lineno : Nat)
  | unsupported (command : String) (value : String) (lineno : Nat)
  deriving DecidableEq, Repr

namespace Node

/-- the `lineno` attribute (every node carries one). -/
def lineno : Node → Nat
  | .empty n => n
  | .hash _ n => n
  | .line _ n => n
  | .chordline _ n => n
  | .soc n => n
  | .eoc n => n
  | .sot n => n
  | .eot n => n
  | .comment _ n => n
  | .unsupported _ _ n => n

/-- `isinstance(x, Command)`. -/
def isCommand : Node → Bool
  | .soc _ | .eoc _ | .sot _ | .eot _ | .comment _ _ | .unsupported _ _ _ => true
  | _ => false

/-- `isinstance(x, Line)` (covers `ChordLine`). -/
def isLine : Node → Bool
  | .line _ _ | .chordline _ _ => true
  | _ => false

/-- `isinstance(x, EmptyLine)` (covers `HashComment`). -/
def isEmptyLike : Node → Bool
  | .empty _ | .hash _ _ => true
  | _ => false

/-- `isinstance(x, (EmptyLine, HashComment, Comment, UnsupportedCommand))`,
the classes consumed by `consume_extra`. -/
def isExtra : Node → Bool
  | .empty _ | .hash _ _ | .comment _ _ | .unsupported _ _ _ => true
  | _ => false

/-- `isinstance(x, Comment)`. -/
def isComment : Node → Bool
  | .comment _ _ => true
  | _ => false

/-- `isinstance(x, StartOfChorus)`. -/
def isSOC : Node → Bool
  | .soc _ => true
  | _ => false

/-- `isinstance(x, EndOfChorus)`. -/
def isEOC : Node → Bool
  | .eoc _ => true
  | _ => false

/-- `isinstance(x, StartOfTablature)`. -/
def isSOT : Node → Bool
  | .sot _ => true
  | _ => false

/-- `isinstance(x, EndOfTablature)`. -/
def isEOT : Node → Bool
  | .eot _ => true
  | _ => false

end Node

/-! ### `CommandParser` (lines 415-447)

The eight patterns are prefix matches (`re.match`) of the shapes
`{\s*(kw1|kw2)\s*}`, `{\s*(kw1|kw2)\s*:\s*(?P<v>.*)}` and
`{\s*(define)\s+(?P<v>.*)}`, case-insensitive.  A greedy `.*` followed by
`}` captures everything up to the last `}` of the line (lines hold no
newline).  Alternatives are tried left to right.
-/

/-- case-insensitive prefix removal (`re.I` on ASCII keywords). -/
def dropKwCI : List Char → List Char → Option (List Char)
  | [], cs => some cs
  | _ :: _, [] => none
  | k :: kr, c :: cr => if k.toLower = c.toLower then dropKwCI kr cr else none

/-- `\s*` (greedy; safe since every continuation starts with a non-space). -/
def dropSp (cs : List Char) : List Char := cs.dropWhile isPySpace

/-- the characters before the last `}`, if any `}` occurs. -/
def upToLastRBrace (cs : List Char) : Option (List Char) :=
  match cs.reverse.dropWhile (fun c => c ≠ '\x7d') with
  | [] => none
  | _ :: restRev => some restRev.reverse

/-- `re.match` of `{\s*(kw…)\s*}` against the line. -/
def matchSimpleCmd (kws : List (List Char)) : List Char → Bool
  | '\x7b' :: rest =>
    kws.any fun kw =>
      match dropKwCI kw (dropSp rest) with
      | none => false
      | some r =>
        match dropSp r with
        | '\x7d' :: _ => true
        | _ => false
  | _ => false

/-- `re.match` of `{\s*(kw…)\s*:\s*(?P<v>.*)}`; returns the `v` group. -/
def matchValuedCmd (kws : List (List Char)) : List Char → Option (List Char)
  | '\x7b' :: rest =>
    kws.findSome? fun kw =>
      match dropKwCI kw (dropSp rest) with
      | none => none
      | some r =>
        match dropSp r with
        | ':' :: r2 => upToLastRBrace (dropSp r2)
        | _ => none
  | _ => none

/-- `re.match` of `{\s*(define)\s+(?P<v>.*)}`; returns the `v` group. -/
def matchDefineCmd : List Char → Option (List Char)
  | '\x7b' :: rest =>
    match dropKwCI "define".data (dropSp rest) with
    | none => none
    | some r =>
      match r with
      | c :: r2 => if isPySpace c then upToLastRBrace (dropSp r2) else none
      | [] => none
  | _ => none

/-- `CommandParser.__call__(v, lineno)` (lines 433-447): try the patterns in
source order, fall back to a `HashComment` marking the line ignored. -/
def commandParser (sl : List Char) (lineno : Nat) : Node :=
  match matchValuedCmd ["comment".data, "c".data] sl with
  | some g => .comment ⟨g⟩ lineno
  | none =>
  if matchSimpleCmd ["start_of_chorus".data, "soc".data] sl then .soc lineno
  else if matchSimpleCmd ["end_of_chorus".data, "eoc".data] sl then .eoc lineno
  else if matchSimpleCmd ["start_of_tab".data, "sot".data] sl then .sot lineno
  else if matchSimpleCmd ["end_of_tab".data, "eot".data] sl then .eot lineno
  else
    match matchDefineCmd sl with
    | some g => .unsupported "define" ⟨g⟩ lineno
    | none =>
    match matchValuedCmd ["title".data, "t".data] sl with
    | some g => .unsupported "title" ⟨g⟩ lineno
    | none =>
    match matchValuedCmd ["subtitle".data, "st".data] sl with
    | some g => .unsupported "subtitle" ⟨g⟩ lineno
    | none => .hash ⟨'#' :: sl ++ " [IGNORED]".data⟩ lineno

/-- `LineParser.__call__` (lines 459-461): a `ChordLine` iff the chord regex
matches somewhere in the line. -/
def lineParser (cs : List Char) (lineno : Nat) : Node :=
  if scanGo none 0 cs ≠ [] then .chordline ⟨cs⟩ lineno else .line ⟨cs⟩ lineno

/-- one line of `parse` (lines 471-476): classify by first stripped char. -/
def classifyLine (cs : List Char) (lineno : Nat) : Node :=
  let sl := pyStripL cs
  match sl with
  | [] => .empty lineno
  | c :: _ =>
    if c = '#' then .hash ⟨sl⟩ lineno
    else if c = '\x7b' then commandParser sl lineno
    else lineParser (pyRstripL cs) lineno

/-- `parse(t)` (lines 464-478): split on newlines, 1-indexed linenos. -/
def parse (t : String) : List Node :=
  (pySplitCh '\n' t.data).enum.map fun p => classifyLine p.2 (p.1 + 1)

/-! ### Blocks (lines 188-305)

`Verse.end` sets `ended = True`; `Chorus.end` and `Tablature.end` only store
the end marker and leave `ended` untouched — the embedding reproduces that
exactly.  `append` on an ended block raises; building the error message can
itself raise (`lines[0]` on an empty verse is an IndexError, `ends.lineno`
on `ends = None` is an AttributeError).
-/

structure VerseB where
  lines : List Node
  ended : Bool
  deriving DecidableEq, Repr

structure ChorusB where
  starts : Node
  lines : List Node
  ends : Option Node
  ended : Bool
  deriving DecidableEq, Repr

structure TablatureB where
  starts : Node
  lines : List Node
  ends : Option Node
  ended : Bool
  deriving DecidableEq, Repr

/-- Python exceptions raised by the parser, by site. -/
inductive PyErr where
  | cantMakeSense (lineno : Nat)
  | commandInChorus (lineno : Nat)
  | commandInTablature (lineno : Nat)
  | appendClosedVerse (firstLine lastLine : Nat)
  | appendClosedChorus (startLine endLine : Nat)
  | appendClosedTablature (startLine endLine : Nat)
  | indexError
  | attributeError
  | typeErrorNotIterable
  | fuelExhausted
  deriving DecidableEq, Repr

/-- `Verse.__init__`. -/
def verseInit : VerseB := ⟨[], false⟩

/-- `Verse.append` (lines 197-201). -/
def verseAppend (v : VerseB) (l : Node) : Except PyErr VerseB :=
  if v.ended then
    match v.lines.head?, v.lines.getLast? with
    | some a, some b => .error (.appendClosedVerse a.lineno b.lineno)
    | _, _ => .error .indexError
  else .ok ⟨v.lines ++ [l], v.ended⟩

/-- `Verse.end` (lines 204-206). -/
def verseEnd (v : VerseB) : VerseB := ⟨v.lines, true⟩

/-- `Chorus.__init__` (lines 230-234). -/
def chorusInit (start : Node) : ChorusB := ⟨start, [], none, false⟩

/-- `Chorus.append` (lines 237-240). -/
def chorusAppend (c : ChorusB) (l : Node) : Except PyErr ChorusB :=
  if c.ended then
    match c.ends with
    | some e => .error (.appendClosedChorus c.starts.lineno e.lineno)
    | none => .error .attributeError
  else .ok ⟨c.starts, c.lines ++ [l], c.ends, c.ended⟩

/-- `Chorus.end` (lines 243-244): records the marker, does **not** set
`ended`. -/
def chorusEnd (c : ChorusB) (e : Node) : ChorusB := ⟨c.starts, c.lines, some e, c.ended⟩

/-- `Tablature.__init__` (lines 271-275). -/
def tabInit (start : Node) : TablatureB := ⟨start, [], none, false⟩

/-- `Tablature.append` (lines 278-281). -/
def tabAppend (t : TablatureB) (l : Node) : Except PyErr TablatureB :=
  if t.ended then
    match t.ends with
    | some e => .error (.appendClosedTablature t.starts.lineno e.lineno)
    | none => .error .attributeError
  else .ok ⟨t.starts, t.lines ++ [l], t.ends, t.ended⟩

/-- `Tablature.end` (lines 284-285): records the marker, does **not** set
`ended`. -/
def tabEnd (t : TablatureB) (e : Node) : TablatureB := ⟨t.starts, t.lines, some e, t.ended⟩

/-! ### `syntax_analysis` and its consumers (lines 481-583) -/

/-- An element of the document list assembled by `syntax_analysis`. -/
inductive Elem where
  | node (n : Node)
  | verse (v : VerseB)
  | chorus (c : ChorusB)
  | tab (t : TablatureB)
  deriving DecidableEq, Repr

/-- `consume_extra` (lines 535-545): greedily take pass-through nodes;
returns the consumed elements and the remaining input. -/
def consumeExtra : List Node → List Elem × List Node
  | [] => ([], [])
  | h :: t =>
    if h.isExtra then
      let p := consumeExtra t
      (.node h :: p.1, p.2)
    else ([], h :: t)

/-- The `while` loop of `consume_verse` (lines 557-561). -/
def cvLoop (v : VerseB) : List Node → Except PyErr (VerseB × List Node)
  | [] => .ok (v, [])
  | i :: rest =>
    if i.isEmptyLike || i.isCommand then .ok (v, i :: rest)
    else
      match verseAppend v i with
      | .ok v2 => cvLoop v2 rest
      | .error e => .error e

/-- `consume_verse` (lines 548-564). -/
def consumeVerse (input : List Node) : Except PyErr (List Elem × List Node) :=
  match input with
  | [] => .ok ([], [])
  | h :: rest =>
    if h.isLine then
      match verseAppend verseInit h with
      | .error e => .error e
      | .ok v =>
        match cvLoop v rest with
        | .error e => .error e
        | .ok (v2, r) => .ok ([.verse (verseEnd v2)], r)
    else .ok ([], input)

/-- The `while True` loop of `consume_chorus` (lines 491-505): end marker
closes and is consumed, `Comment`s and non-commands are appended, any other
command raises, exhaustion returns the open chorus (`except IndexError`). -/
def ccLoop (c : ChorusB) : List Node → Except PyErr (List Elem × List Node)
  | [] => .ok ([.chorus c], [])
  | i :: rest =>
    if i.isEOC then .ok ([.chorus (chorusEnd c i)], rest)
    else if i.isComment then
      match chorusAppend c i with
      | .ok c2 => ccLoop c2 rest
      | .error e => .error e
    else if i.isCommand then .error (.commandInChorus i.lineno)
    else
      match chorusAppend c i with
      | .ok c2 => ccLoop c2 rest
      | .error e => .error e

/-- `consume_chorus` (lines 481-505). -/
def consumeChorus (input : List Node) : Except PyErr (List Elem × List Node) :=
  match input with
  | [] => .ok ([], [])
  | h :: rest => if h.isSOC then ccLoop (chorusInit h) rest else .ok ([], input)

/-- Result of `consume_tablature`: the end-of-input path of the source
(line 532) returns the bare `Tablature` object instead of a one-element
list; `bare` records that untyped return value. -/
inductive TabOut where
  | elems (l : List Elem)
  | bare (t : TablatureB)
  deriving DecidableEq, Repr

/-- The `while True` loop of `consume_tablature` (lines 518-532); on
exhaustion it returns `retval` itself, not `[retval]`. -/
def ctLoop (t : TablatureB) : List Node → Except PyErr (TabOut × List Node)
  | [] => .ok (.bare t, [])
  | i :: rest =>
    if i.isEOT then .ok (.elems [.tab (tabEnd t i)], rest)
    else if i.isComment then
      match tabAppend t i with
      | .ok t2 => ctLoop t2 rest
      | .error e => .error e
    else if i.isCommand then .error (.commandInTablature i.lineno)
    else
      match tabAppend t i with
      | .ok t2 => ctLoop t2 rest
      | .error e => .error e

/-- `consume_tablature` (lines 508-532). -/
def consumeTablature (input : List Node) : Except PyErr (TabOut × List Node) :=
  match input with
  | [] => .ok (.elems [], [])
  | h :: rest => if h.isSOT then ctLoop (tabInit h) rest else .ok (.elems [], input)

/-- The `while input` loop of `syntax_analysis` (lines 574-582), with fuel
bounding the number of iterations (each iteration consumes at least one
token or raises, so `input.length + 1` units always suffice).
`retval += consume_tablature(input)` raises TypeError when the bare
`Tablature` comes back; if nothing was consumed the loop raises
SyntaxError on the current head. -/
def saLoop : Nat → List Node → Except PyErr (List Elem)
  | 0, _ => .error .fuelExhausted
  | _ + 1, [] => .ok []
  | n + 1, h :: t =>
    match consumeExtra (h :: t) with
    | (e1, r1) =>
      match consumeVerse r1 with
      | .error e => .error e
      | .ok (v1, r2) =>
        match consumeChorus r2 with
        | .error e => .error e
        | .ok (c1, r3) =>
          match consumeTablature r3 with
          | .error e => .error e
          | .ok (.bare _, _) => .error .typeErrorNotIterable
          | .ok (.elems t1, r4) =>
            if r4.length = (h :: t).length then .error (.cantMakeSense h.lineno)
            else
              match saLoop n r4 with
              | .error e => .error e
              | .ok rest => .ok (e1 ++ v1 ++ c1 ++ t1 ++ rest)

/-- `syntax_analysis(input)` (lines 567-583). -/
def syntacticAnalysis (input : List Node) : Except PyErr (List Elem) :=
  saLoop (input.length + 1) input

instance {ε α : Type} [DecidableEq ε] [DecidableEq α] : DecidableEq (Except ε α) := by
  intro x y
  cases x <;> cases y
  case error.error a b =>
    exact if h : a = b then .isTrue (by rw [h]) else .isFalse (by intro hh; cases hh; exact h rfl)
  case error.ok a b => exact .isFalse (by intro hh; cases hh)
  case ok.error a b => exact .isFalse (by intro hh; cases hh)
  case ok.ok a b =>
    exact if h : a = b then .isTrue (by rw [h]) else .isFalse (by intro hh; cases hh; exact h rfl)

/-! ### Renderers

`as_html` / `as_pdf` per node, `as_flowable`'s text content per block.
Spots where the Python could raise are `none`:
* the four bare markers (`StartOfChorus` …) define no `as_html` at all, so
  calling it would be an AttributeError;
* `ChordLine.as_pdf` names an undefined variable `chord` in its
  `diff < 0` branch (NameError) and indexes `lyrics[i]` (IndexError).
-/

/-- Python `' ' * n` (negative repeat gives the empty string). -/
def spacesI (n : Int) : String := ⟨List.replicate n.toNat ' '⟩

/-- Python `str.capitalize()`: first char upper, rest lower. -/
def pyCapitalize (s : String) : String :=
  match s.data with
  | [] => ""
  | c :: r => ⟨c.toUpper :: r.map Char.toLower⟩

/-- The chord annotation line built by `ChordLine.__str__`/`as_html`:
for each `(offset, chord)` append `offset` spaces then the chord. -/
def chordsLineStr (chords : List (Int × String)) : String :=
  chords.foldl (fun acc c => acc ++ spacesI c.1 ++ c.2) ""

/-- The chord fragment of `ChordLine.as_pdf` (lines 131-133): same line with
each chord capitalized, wrapped in the highlight font tag. -/
def chordFragment (k : List (Int × String)) : String :=
  "<font color=#000088><b>" ++
    (k.foldl (fun acc c => acc ++ spacesI c.1 ++ pyCapitalize c.2) "") ++ "</b></font>"

/-- The output loop of `ChordLine.as_pdf` (lines 129-134): for each chord
fragment emit it and `lyrics[i]`; a missing index is an IndexError. -/
def clPdfLoop (ks : List (List (Int × String))) (i : Nat) (lys : List String) :
    Option (List String) :=
  match ks with
  | [] => some []
  | k :: kr =>
    match lys[i]? with
    | none => none
    | some ly => (clPdfLoop kr (i + 1) lys).map fun ls => chordFragment k :: ly :: ls

/-- `ChordLine.as_pdf(width)` (lines 121-135): wrap, re-decompose each
fragment, pad lyrics when there are more chord rows (`diff > 0`); the
`diff < 0` branch refers to the undefined name `chord` (NameError). -/
def chordLineAsPdf (v : String) (width : Int) : Option (List String) :=
  let value := break_chordline v width
  let lyrics := value.map bareText
  let chords := value.map chordsOf
  let diff : Int := (chords.length : Int) - (lyrics.length : Int)
  if 0 < diff then clPdfLoop chords 0 (lyrics ++ List.replicate diff.toNat "")
  else if diff < 0 then none
  else clPdfLoop chords 0 lyrics

namespace Node

/-- `as_html` per node class; the four bare markers have none
(AttributeError if called). -/
def asHtml : Node → Option String
  | .empty _ => some "\n"
  | .hash _ _ => some ""
  | .line t _ => some ("<span class=\"line\">" ++ t ++ "</span>")
  | .chordline t _ =>
    some ("<span class=\"chords\">" ++ chordsLineStr (chordsOf t) ++ "</span>\n" ++
          "<span class=\"lyrics\">" ++ bareText t ++ "</span>\n")
  | .soc _ | .eoc _ | .sot _ | .eot _ => none
  | .comment v _ => some ("<span class=\"comment\">" ++ v ++ "</span>\n")
  | .unsupported _ _ _ => some ""

/-- `as_pdf(width)` per node class (`Command.as_pdf` returns `[]` and covers
the markers and `UnsupportedCommand`). -/
def asPdf (n : Node) (width : Int) : Option (List String) :=
  match n with
  | .empty _ => some [""]
  | .hash t _ => some (break_line t width)
  | .line t _ => some (break_line t width)
  | .chordline t _ => chordLineAsPdf t width
  | .soc _ | .eoc _ | .sot _ | .eot _ => some []
  | .comment v _ =>
    some ((break_line v width).map fun k => "<font color=#444444><i>" ++ k ++ "</i></font>")
  | .unsupported _ _ _ => some []

end Node

/-- Collect a list of optional renderings, failing if any child failed. -/
def seqO {α : Type} : List (Option α) → Option (List α)
  | [] => some []
  | none :: _ => none
  | some a :: t => (seqO t).map fun l => a :: l

namespace Elem

/-- `as_html` per document element; a block joins its children's inline
renderings (`Verse.as_html`, `Chorus.as_html`, `Tablature.as_html`). -/
def asHtml : Elem → Option String
  | .node n => n.asHtml
  | .verse v => (seqO (v.lines.map Node.asHtml)).map fun ps => String.intercalate "\n" ps
  | .chorus c =>
    (seqO (c.lines.map Node.asHtml)).map fun ps =>
      "\n<span class=\"chorus\">" ++ String.intercalate "\n" ps ++ "</span>\n"
  | .tab t =>
    (seqO (t.lines.map Node.asHtml)).map fun ps =>
      "\n<span class=\"tablature\">" ++ String.intercalate "\n" ps ++ "</span>\n"

/-- The paged text fragments of a document element: `as_pdf` for a node,
the `data` accumulation of `as_flowable` for a block (lines 220-223,
261-264, 302-305). -/
def asPdf (e : Elem) (width : Int) : Option (List String) :=
  match e with
  | .node n => n.asPdf width
  | .verse v => (seqO (v.lines.map (Node.asPdf · width))).map List.flatten
  | .chorus c => (seqO (c.lines.map (Node.asPdf · width))).map List.flatten
  | .tab t => (seqO (t.lines.map (Node.asPdf · width))).map List.flatten

end Elem

/-! ### Lemmas about the chord scanner, for C8

The key structural facts: with budget 0 the substitution is the identity;
inside a bracket the scan jumps to the first `]`; if every bracket opened
in `xs` closes inside `xs` (`closedGo false xs = true`), substitution
distributes over `xs ++ ys` with the budget decreased by the number of
matches in `xs`; and a larger budget never makes the output longer.
-/

theorem subGo_zero : ∀ cs : List Char, subGo 0 none cs = cs := by
  intro cs
  induction cs with
  | nil => rfl
  | cons c rest ih => simp [subGo, ih]

theorem subGo_cons_not_lb {x : Char} (hx : ¬x = '[') (c : Nat) (rest : List Char) :
    subGo c none (x :: rest) = x :: subGo c none rest := by
  simp [subGo, hx]

theorem subGo_cons_lb (cc : Nat) (rest : List Char) :
    subGo (cc + 1) none ('[' :: rest) = subGo (cc + 1) (some ['[']) rest := by
  simp [subGo]

theorem splitFirstRB : ∀ cs : List Char, ']' ∈ cs →
    ∃ grp after, cs = grp ++ ']' :: after ∧ ']' ∉ grp := by
  intro cs
  induction cs with
  | nil => intro h; exact absurd h (List.not_mem_nil _)
  | cons c rest ih =>
    intro h
    by_cases hc : c = ']'
    · subst hc
      exact ⟨[], rest, rfl, List.not_mem_nil _⟩
    · have hr : ']' ∈ rest := by
        rcases List.mem_cons.mp h with h1 | h2
        · exact absurd h1.symm hc
        · exact h2
      rcases ih hr with ⟨grp, after, heq, hnot⟩
      refine ⟨c :: grp, after, by rw [heq]; rfl, ?_⟩
      intro hm
      rcases List.mem_cons.mp hm with h1 | h2
      · exact hc h1.symm
      · exact hnot h2

theorem subGo_inside : ∀ grp : List Char, ']' ∉ grp →
    ∀ (c : Nat) (p rest : List Char),
      subGo c (some p) (grp ++ ']' :: rest) = subGo (c - 1) none rest := by
  intro grp
  induction grp with
  | nil => intro _ c p rest; simp [subGo]
  | cons g gr ih =>
    intro hn c p rest
    have hg : ¬g = ']' := fun h => hn (by rw [← h]; exact List.mem_cons_self g gr)
    simp only [List.cons_append, subGo, hg, if_false]
    exact ih (fun hm => hn (List.mem_cons_of_mem g hm)) c (g :: p) rest

theorem subGo_inside_none : ∀ zs : List Char, ']' ∉ zs →
    ∀ (c : Nat) (p : List Char), subGo c (some p) zs = p.reverse ++ zs := by
  intro zs
  induction zs with
  | nil => intro _ c p; simp [subGo]
  | cons z zr ih =>
    intro hn c p
    have hz : ¬z = ']' := fun h => hn (by rw [← h]; exact List.mem_cons_self z zr)
    simp only [subGo, hz, if_false]
    rw [ih (fun hm => hn (List.mem_cons_of_mem z hm)) c (z :: p)]
    simp

theorem mcGo_inside : ∀ grp : List Char, ']' ∉ grp →
    ∀ rest : List Char, mcGo true (grp ++ ']' :: rest) = 1 + mcGo false rest := by
  intro grp
  induction grp with
  | nil => intro _ rest; simp [mcGo]
  | cons g gr ih =>
    intro hn rest
    have hg : ¬g = ']' := fun h => hn (by rw [← h]; exact List.mem_cons_self g gr)
    simp only [List.cons_append, mcGo, hg, if_false]
    exact ih (fun hm => hn (List.mem_cons_of_mem g hm)) rest

theorem mcGo_false_cons {x : Char} (hx : ¬x = '[') (rest : List Char) :
    mcGo false (x :: rest) = mcGo false rest := by
  simp [mcGo, hx]

theorem closedGo_inside : ∀ grp : List Char, ']' ∉ grp →
    ∀ rest : List Char, closedGo true (grp ++ ']' :: rest) = closedGo false rest := by
  intro grp
  induction grp with
  | nil => intro _ rest; simp [closedGo]
  | cons g gr ih =>
    intro hn rest
    have hg : ¬g = ']' := fun h => hn (by rw [← h]; exact List.mem_cons_self g gr)
    simp only [List.cons_append, closedGo, hg, if_false]
    exact ih (fun hm => hn (List.mem_cons_of_mem g hm)) rest

theorem closedGo_false_cons {c : Char} (hc : ¬c = '[') (rest : List Char) :
    closedGo false (c :: rest) = closedGo false rest := by
  simp [closedGo, hc]

theorem closedGo_false_lb (rest : List Char) :
    closedGo false ('[' :: rest) = closedGo true rest := by
  simp [closedGo]

theorem closedGo_true_mem : ∀ cs : List Char, closedGo true cs = true → ']' ∈ cs := by
  intro cs
  induction cs with
  | nil => intro h; exact absurd h (by simp [closedGo])
  | cons c rest ih =>
    intro h
    by_cases hc : c = ']'
    · rw [hc]; exact List.mem_cons_self ']' rest
    · have h2 : closedGo true rest = true := by
        simpa [closedGo, hc] using h
      exact List.mem_cons_of_mem c (ih h2)

theorem closedGo_append : ∀ (n : Nat) (xs : List Char), xs.length ≤ n →
    closedGo false xs = true →
    ∀ ys : List Char, closedGo false (xs ++ ys) = closedGo false ys := by
  intro n
  induction n with
  | zero =>
    intro xs hlen _ ys
    have hx : xs = [] := List.eq_nil_of_length_eq_zero (Nat.le_zero.mp hlen)
    subst hx; rfl
  | succ m ih =>
    intro xs hlen hcl ys
    cases xs with
    | nil => rfl
    | cons c rest =>
      by_cases hc : c = '['
      · subst hc
        have h1 : closedGo true rest = true := by rwa [closedGo_false_lb] at hcl
        rcases splitFirstRB rest (closedGo_true_mem rest h1) with ⟨grp, after, heq, hnot⟩
        subst heq
        have h3 : closedGo false after = true := by
          rwa [closedGo_inside grp hnot after] at h1
        have h4 : after.length ≤ m := by
          simp only [List.length_cons, List.length_append] at hlen
          omega
        rw [List.cons_append, closedGo_false_lb,
          show (grp ++ ']' :: after) ++ ys = grp ++ ']' :: (after ++ ys) by simp,
          closedGo_inside grp hnot (after ++ ys)]
        exact ih after h4 h3 ys
      · have h1 : closedGo false rest = true := by rwa [closedGo_false_cons hc] at hcl
        rw [List.cons_append, closedGo_false_cons hc]
        exact ih rest (by simp only [List.length_cons] at hlen; omega) h1 ys

theorem subGo_append : ∀ (n : Nat) (xs : List Char), xs.length ≤ n →
    closedGo false xs = true →
    ∀ (c : Nat) (ys : List Char),
      subGo c none (xs ++ ys) = subGo c none xs ++ subGo (c - mcGo false xs) none ys := by
  intro n
  induction n with
  | zero =>
    intro xs hlen _ c ys
    have hx : xs = [] := List.eq_nil_of_length_eq_zero (Nat.le_zero.mp hlen)
    subst hx; simp [mcGo, subGo]
  | succ m ih =>
    intro xs hlen hcl c ys
    cases xs with
    | nil => simp [mcGo, subGo]
    | cons x rest =>
      rcases Nat.eq_zero_or_pos c with hc0 | hcpos
      · subst hc0
        rw [subGo_zero, subGo_zero, Nat.zero_sub, subGo_zero]
      · by_cases hx : x = '['
        · subst hx
          obtain ⟨cc, rfl⟩ : ∃ cc, c = cc + 1 := ⟨c - 1, by omega⟩
          have h1 : closedGo true rest = true := by rwa [closedGo_false_lb] at hcl
          rcases splitFirstRB rest (closedGo_true_mem rest h1) with ⟨grp, after, heq, hnot⟩
          subst heq
          have h3 : closedGo false after = true := by
            rwa [closedGo_inside grp hnot after] at h1
          have h4 : after.length ≤ m := by
            simp only [List.length_cons, List.length_append] at hlen
            omega
          rw [List.cons_append, subGo_cons_lb,
            show (grp ++ ']' :: after) ++ ys = grp ++ ']' :: (after ++ ys) by simp,
            subGo_inside grp hnot, subGo_cons_lb, subGo_inside grp hnot,
            show mcGo false ('[' :: (grp ++ ']' :: after)) = 1 + mcGo false after by
              simp only [mcGo, if_pos rfl]; exact mcGo_inside grp hnot after]
          rw [show cc + 1 - 1 = cc from by omega,
            show cc + 1 - (1 + mcGo false after) = cc - mcGo false after from by omega]
          exact ih after h4 h3 cc ys
        · have h1 : closedGo false rest = true := by rwa [closedGo_false_cons hx] at hcl
          rw [List.cons_append, subGo_cons_not_lb hx, subGo_cons_not_lb hx,
            mcGo_false_cons hx,
            ih rest (by simp only [List.length_cons] at hlen; omega) h1 c ys]
          rfl

theorem subGo_len_le : ∀ (cs : List Char) (c : Nat) (st : Option (List Char)),
    (subGo c st cs).length ≤ (st.elim 0 List.length) + cs.length := by
  intro cs
  induction cs with
  | nil => intro c st; cases st <;> simp [subGo]
  | cons x rest ih =>
    intro c st
    cases st with
    | none =>
      by_cases hcx : ((decide (c ≠ 0) && decide (x = '[')) = true)
      · simp only [subGo]
        rw [if_pos hcx]
        have h := ih c (some [x])
        simp only [Option.elim, List.length_cons, List.length_singleton,
          List.length_nil] at h ⊢
        omega
      · simp only [subGo]
        rw [if_neg hcx]
        have h := ih c none
        simp only [Option.elim] at h ⊢
        simp only [List.length_cons]
        omega
    | some p =>
      by_cases hx : x = ']'
      · simp only [subGo]
        rw [if_pos hx]
        have h := ih (c - 1) none
        simp only [Option.elim] at h ⊢
        simp only [List.length_cons]
        omega
      · simp only [subGo]
        rw [if_neg hx]
        have h := ih c (some (x :: p))
        simp only [Option.elim, List.length_cons] at h ⊢
        omega

theorem subGo_budget_mono : ∀ (n : Nat) (xs : List Char), xs.length ≤ n →
    ∀ c1 c2 : Nat, c1 ≤ c2 →
      (subGo c2 none xs).length ≤ (subGo c1 none xs).length := by
  intro n
  induction n with
  | zero =>
    intro xs hlen c1 c2 _
    have hx : xs = [] := List.eq_nil_of_length_eq_zero (Nat.le_zero.mp hlen)
    subst hx
    exact le_refl _
  | succ m ih =>
    intro xs hlen c1 c2 hc
    cases xs with
    | nil => exact le_refl _
    | cons x rest =>
      have hrm : rest.length ≤ m := by simp only [List.length_cons] at hlen; omega
      by_cases hx : x = '['
      · subst hx
        cases c1 with
        | zero =>
          rw [subGo_zero]
          cases c2 with
          | zero => rw [subGo_zero]
          | succ d2 =>
            rw [subGo_cons_lb]
            by_cases hr : ']' ∈ rest
            · rcases splitFirstRB rest hr with ⟨grp, after, heq, hnot⟩
              subst heq
              rw [subGo_inside grp hnot]
              have h := subGo_len_le after (d2 + 1 - 1) none
              simp only [Option.elim] at h
              simp only [List.length_cons, List.length_append]
              omega
            · rw [subGo_inside_none rest hr]
              simp
        | succ d1 =>
          obtain ⟨d2, rfl⟩ : ∃ d2, c2 = d2 + 1 := ⟨c2 - 1, by omega⟩
          rw [subGo_cons_lb, subGo_cons_lb]
          by_cases hr : ']' ∈ rest
          · rcases splitFirstRB rest hr with ⟨grp, after, heq, hnot⟩
            subst heq
            rw [subGo_inside grp hnot, subGo_inside grp hnot]
            have hal : after.length ≤ m := by
              simp only [List.length_append, List.length_cons] at hrm
              omega
            have := ih after hal (d1 + 1 - 1) (d2 + 1 - 1) (by omega)
            exact this
          · rw [subGo_inside_none rest hr, subGo_inside_none rest hr]
      · rw [subGo_cons_not_lb hx, subGo_cons_not_lb hx]
        simp only [List.length_cons]
        have := ih rest hrm c1 c2 hc
        omega

/-! Splitting on spaces and joining back. -/

theorem pySplitCh_ne_nil (sep : Char) : ∀ cs : List Char, pySplitCh sep cs ≠ [] := by
  intro cs
  cases cs with
  | nil => simp [pySplitCh]
  | cons c rest => by_cases hc : c = sep <;> simp [pySplitCh, hc]

theorem joinSp_pySplit : ∀ cs : List Char, joinSp (pySplitCh ' ' cs) = cs := by
  intro cs
  induction cs with
  | nil => rfl
  | cons c rest ih =>
    by_cases hc : c = ' '
    · subst hc
      simp only [pySplitCh, if_pos rfl]
      cases hws : pySplitCh ' ' rest with
      | nil => exact absurd hws (pySplitCh_ne_nil ' ' rest)
      | cons w t =>
        rw [hws] at ih
        show joinSp ([] :: w :: t) = ' ' :: rest
        simp only [joinSp]
        rw [ih]
        rfl
    · simp only [pySplitCh, if_neg hc]
      cases hws : pySplitCh ' ' rest with
      | nil => exact absurd hws (pySplitCh_ne_nil ' ' rest)
      | cons w t =>
        rw [hws] at ih
        show joinSp ((c :: (w :: t).headD []) :: (w :: t).tail) = c :: rest
        simp only [List.headD_cons, List.tail_cons]
        cases t with
        | nil =>
          simp only [joinSp] at ih ⊢
          rw [ih]
        | cons t1 t2 =>
          simp only [joinSp] at ih ⊢
          rw [← ih]
          rfl

/-! `clen` arithmetic over a space-join of bracket-closed fragments. -/

theorem subGo_space (c : Nat) (zs : List Char) :
    subGo c none (' ' :: zs) = ' ' :: subGo c none zs :=
  subGo_cons_not_lb (by decide) c zs

theorem closedGo_space (zs : List Char) :
    closedGo false (' ' :: zs) = closedGo false zs :=
  closedGo_false_cons (by decide) zs

theorem clenL_le_join (J tailJoin : List Char) (hcl : closedGo false J = true) :
    clenL J ≤ clenL (J ++ ' ' :: tailJoin) := by
  unfold clenL
  rw [subGo_append J.length J le_rfl hcl 32 (' ' :: tailJoin)]
  simp

theorem clenL_append_space (J : List Char) (hcl : closedGo false J = true) :
    clenL (J ++ [' ']) = clenL J + 1 := by
  unfold clenL
  rw [subGo_append J.length J le_rfl hcl 32 [' '], subGo_space]
  simp [subGo]

theorem clenL_join_ge (J w : List Char) (rest : List (List Char))
    (hJ : closedGo false J = true) (hw : closedGo false w = true) :
    clenL J + 1 + clenL w ≤ clenL (J ++ ' ' :: joinSp (w :: rest)) := by
  unfold clenL
  rw [subGo_append J.length J le_rfl hJ 32, subGo_space]
  have hm : (subGo 32 none w).length ≤ (subGo (32 - mcGo false J) none w).length :=
    subGo_budget_mono w.length w le_rfl (32 - mcGo false J) 32 (Nat.sub_le 32 _)
  cases rest with
  | nil =>
    simp only [joinSp]
    simp only [List.length_append, List.length_cons]
    omega
  | cons r t =>
    simp only [joinSp]
    rw [subGo_append w.length w le_rfl hw (32 - mcGo false J)]
    simp only [List.length_append, List.length_cons]
    omega

/-! The accumulation loop of `break_chordline` keeps everything on one
line while the visible length of the whole join stays under the width. -/

theorem wrapFold_single : ∀ (rest : List (List Char)) (J : List Char) (width : Int),
    closedGo false J = true →
    (∀ w ∈ rest, closedGo false w = true) →
    (clenL (joinSp (J :: rest)) : Int) < width →
    List.foldl (wrapStep clenL width) [J] rest = [joinSp (J :: rest)] := by
  intro rest
  induction rest with
  | nil => intro J width _ _ _; simp [joinSp]
  | cons w rest2 ih =>
    intro J width hJ hws hlen
    have hw : closedGo false w = true := hws w (List.mem_cons_self w rest2)
    have hrest2 : ∀ x ∈ rest2, closedGo false x = true :=
      fun x hx => hws x (List.mem_cons_of_mem w hx)
    have hjoin : joinSp (J :: w :: rest2) = J ++ ' ' :: joinSp (w :: rest2) := rfl
    have hf1 : clenL J ≤ clenL (joinSp (J :: w :: rest2)) := by
      rw [hjoin]; exact clenL_le_join J _ hJ
    have hf3 : clenL J + 1 + clenL w ≤ clenL (joinSp (J :: w :: rest2)) := by
      rw [hjoin]; exact clenL_join_ge J w rest2 hJ hw
    have hJlt : (clenL J : Int) < width :=
      lt_of_le_of_lt (by exact_mod_cast hf1) hlen
    have hsum : (clenL (J ++ [' ']) : Int) + (clenL w : Int) ≤ width := by
      rw [clenL_append_space J hJ]
      calc ((clenL J + 1 : Nat) : Int) + (clenL w : Int)
          = ((clenL J + 1 + clenL w : Nat) : Int) := by push_cast; ring
        _ ≤ ((clenL (joinSp (J :: w :: rest2)) : Nat) : Int) := by exact_mod_cast hf3
        _ ≤ width := le_of_lt hlen
    have hstep : wrapStep clenL width [J] w = [J ++ ' ' :: w] := by
      simp only [wrapStep, if_pos hJlt, if_pos hsum, List.append_assoc]
      rfl
    have hJ2 : closedGo false (J ++ ' ' :: w) = true := by
      rw [closedGo_append J.length J le_rfl hJ (' ' :: w), closedGo_space]
      exact hw
    have hjoin2 : joinSp ((J ++ ' ' :: w) :: rest2) = joinSp (J :: w :: rest2) := by
      cases rest2 with
      | nil => rfl
      | cons a b => simp [joinSp]
    calc List.foldl (wrapStep clenL width) [J] (w :: rest2)
        = List.foldl (wrapStep clenL width) (wrapStep clenL width [J] w) rest2 := rfl
      _ = List.foldl (wrapStep clenL width) [J ++ ' ' :: w] rest2 := by rw [hstep]
      _ = [joinSp ((J ++ ' ' :: w) :: rest2)] :=
          ih _ width hJ2 hrest2 (by rw [hjoin2]; exact hlen)
      _ = [joinSp (J :: w :: rest2)] := by rw [hjoin2]

/-! ## Claims -/

/-- C10: `parse` applied to the empty string yields exactly one node, a
blank (`EmptyLine`) node with line number 1, not an empty token list
(`"".split("\n") == [""]`). -/
theorem c10_parse_empty : parse "" = [Node.empty 1] := by decide

/-- C1, counterexample: on the input `"{soc}\n[C]Hello [G]world\n{eoc}"`
the document is one `Chorus` with one `ChordLine`, but that line's chord
list is `[(0, "C"), (5, "G")]` — the claimed `[(0, "C"), (6, "G")]` is not
what the node stores (offsets are spacing relative to the end of the
previous chord's text, so `"G"` still renders at column 6). -/
theorem c1_counterexample :
    syntacticAnalysis (parse "\x7bsoc\x7d\n[C]Hello [G]world\n\x7beoc\x7d") =
      .ok [.chorus ⟨.soc 1, [.chordline "[C]Hello [G]world" 2], some (.eoc 3), false⟩] ∧
    chordsOf "[C]Hello [G]world" ≠ [((0 : Int), "C"), ((6 : Int), "G")] := by
  exact ⟨by decide, by decide⟩

/-- C1, amended: the input `"{soc}\n[C]Hello [G]world\n{eoc}"` parses into a
document of exactly one `Chorus` containing exactly one `ChordLine`, whose
bare text is `"Hello world"` and whose chord list is
`[(0, "C"), (5, "G")]` (the second offset counts from the end of the
previous chord's text, placing `"G"` at rendered column 6). -/
theorem c1_amended :
    syntacticAnalysis (parse "\x7bsoc\x7d\n[C]Hello [G]world\n\x7beoc\x7d") =
      .ok [.chorus ⟨.soc 1, [.chordline "[C]Hello [G]world" 2], some (.eoc 3), false⟩] ∧
    bareText "[C]Hello [G]world" = "Hello world" ∧
    chordsOf "[C]Hello [G]world" = [((0 : Int), "C"), ((5 : Int), "G")] := by
  exact ⟨by decide, by decide, by decide⟩

/-- C2, counterexample: the `ChordLine` built from the line `"a[C]b[G]c"`
stores the chord list `[(1, "C"), (1, "G")]`, whose offsets are not
strictly increasing (and the two offsets differ by 0). -/
theorem c2_counterexample :
    chordsOf "a[C]b[G]c" = [((1 : Int), "C"), ((1 : Int), "G")] ∧
    ¬ List.Pairwise (fun a b => a.1 < b.1) (chordsOf "a[C]b[G]c") := by
  exact ⟨by decide, by decide⟩

/-- C2, amended: for every `ChordLine`, every stored chord offset is
non-negative and every offset after the first is at least 1 (offsets are
relative gaps after the previous chord's text; the construction forces any
non-positive later offset to exactly 1, so rendered chords never collide —
but the offsets are not strictly increasing absolute positions). -/
theorem c2_amended (v : String) :
    (∀ p ∈ chordsOf v, 0 ≤ p.1) ∧ (∀ p ∈ (chordsOf v).drop 1, 1 ≤ p.1) := by
  have fixtail : ∀ (l : List (Int × String)) (p : Int × String),
      p ∈ l.map (fun p => if p.1 ≤ 0 then ((1 : Int), p.2) else p) → 1 ≤ p.1 := by
    intro l p hp
    rcases List.mem_map.mp hp with ⟨q, _, hq2⟩
    subst hq2
    by_cases h0 : q.1 ≤ 0
    · simp [h0]
    · simp only [h0, if_neg, not_false_iff]
      omega
  unfold chordsOf
  cases hm : chordFinditer v with
  | nil => simp [offsetsAux, fixOffsets]
  | cons m rest =>
    obtain ⟨st, en, g⟩ := m
    simp only [offsetsAux, fixOffsets, List.drop_one, List.tail_cons]
    refine ⟨?_, fun p hp => fixtail _ p hp⟩
    intro p hp
    rcases List.mem_cons.mp hp with h1 | h2
    · subst h1
      show (0 : Int) ≤ (st : Int) - 0
      omega
    · exact le_trans (by norm_num) (fixtail _ p h2)

/-- C2, amended, witness at the line `"a[C]b[G]c"` and its two chords. -/
theorem c2_amended_witness : (0 : Int) ≤ 1 ∧ (1 : Int) ≤ 1 :=
  ⟨(c2_amended "a[C]b[G]c").1 ((1 : Int), "C") (by decide),
   (c2_amended "a[C]b[G]c").2 ((1 : Int), "G") (by decide)⟩

/-- C3: evaluating the code at the failing input.  An unclosed chorus is
indeed recovered (one `Chorus`, no recorded end marker, no error), but the
symmetric unclosed tablature `"{sot}\nfoo"` raises TypeError, because
`consume_tablature`'s end-of-input path returns the bare `Tablature`
object instead of a one-element list and `retval += ...` cannot iterate
it — contradicting the source's own `#input has ended w/o closing`
recovery comment and the chorus implementation. -/
theorem c3_unclosed_tablature_bug :
    syntacticAnalysis (parse "\x7bsoc\x7d\nfoo") =
      .ok [.chorus ⟨.soc 1, [.line "foo" 2], none, false⟩] ∧
    syntacticAnalysis (parse "\x7bsot\x7d\nfoo") = .error .typeErrorNotIterable := by
  exact ⟨by decide, by decide⟩

/-- C4, counterexample: `syntax_analysis(parse("{eoc}\nfoo"))` raises
(`SyntaxError: Cannot make sense of ...` on the line-1 token), so it does
not return the claimed pass-through node plus verse. -/
theorem c4_counterexample :
    syntacticAnalysis (parse "\x7beoc\x7d\nfoo") = .error (.cantMakeSense 1) := by decide

/-- C4, amended: the bare `{eoc}` is recognized as an `EndOfChorus`
directive (not downgraded to a pass-through node), no consumer accepts it
at top level, and `syntax_analysis` raises a structural error naming line
1; no document is returned. -/
theorem c4_amended :
    parse "\x7beoc\x7d\nfoo" = [.eoc 1, .line "foo" 2] ∧
    syntacticAnalysis [.eoc 1, .line "foo" 2] = .error (.cantMakeSense 1) := by
  exact ⟨by decide, by decide⟩

/-- C5: evaluating the code at the failing input.  After `end` has been
called, `append` on a `Chorus` or a `Tablature` succeeds and adds the line
(their `end` never sets `ended`, so the guard in `append` is dead code);
only `Verse` actually raises. -/
theorem c5_closed_append_guard_dead :
    chorusAppend (chorusEnd (chorusInit (.soc 1)) (.eoc 2)) (.line "x" 3) =
      .ok ⟨.soc 1, [.line "x" 3], some (.eoc 2), false⟩ ∧
    tabAppend (tabEnd (tabInit (.sot 1)) (.eot 2)) (.line "x" 3) =
      .ok ⟨.sot 1, [.line "x" 3], some (.eot 2), false⟩ ∧
    verseAppend (verseEnd ⟨[.line "a" 1], false⟩) (.line "x" 2) =
      .error (.appendClosedVerse 1 1) := by
  exact ⟨by decide, by decide, by decide⟩

/-! Helper facts about node predicates and the chorus/tablature loops,
used for C6. -/

theorem isComment_isCommand {m : Node} (h : m.isComment = true) : m.isCommand = true := by
  cases m <;> simp_all [Node.isComment, Node.isCommand]

theorem isComment_not_isEOC {m : Node} (h : m.isComment = true) : m.isEOC = false := by
  cases m <;> simp_all [Node.isComment, Node.isEOC]

theorem isComment_not_isEOT {m : Node} (h : m.isComment = true) : m.isEOT = false := by
  cases m <;> simp_all [Node.isComment, Node.isEOT]

theorem not_isCommand_not_isEOC {m : Node} (h : m.isCommand = false) : m.isEOC = false := by
  cases m <;> simp_all [Node.isCommand, Node.isEOC]

theorem not_isCommand_not_isEOT {m : Node} (h : m.isCommand = false) : m.isEOT = false := by
  cases m <;> simp_all [Node.isCommand, Node.isEOT]

theorem not_isCommand_not_isComment {m : Node} (h : m.isCommand = false) : m.isComment = false := by
  cases m <;> simp_all [Node.isCommand, Node.isComment]

/-- While a chorus is open, the first command that is neither the end
marker nor a `Comment` stops the loop with the chorus error at its line. -/
theorem ccLoop_command_error :
    ∀ (mid : List Node) (c : ChorusB) (bad : Node) (rest : List Node),
      c.ended = false →
      (∀ m ∈ mid, m.isComment = true ∨ m.isCommand = false) →
      bad.isCommand = true → bad.isComment = false → bad.isEOC = false →
      ccLoop c (mid ++ bad :: rest) = .error (.commandInChorus bad.lineno) := by
  intro mid
  induction mid with
  | nil =>
    intro c bad rest _ _ hcmd hncom heoc
    simp [ccLoop, heoc, hncom, hcmd]
  | cons m tl ih =>
    intro c bad rest hend hmid hcmd hncom heoc
    have hm := hmid m (List.mem_cons_self m tl)
    have htl : ∀ x ∈ tl, x.isComment = true ∨ x.isCommand = false :=
      fun x hx => hmid x (List.mem_cons_of_mem m hx)
    rcases hm with hcom | hnc
    · have h1 : m.isEOC = false := isComment_not_isEOC hcom
      simp only [List.cons_append, ccLoop, h1, hcom, chorusAppend, hend,
        Bool.false_eq_true, if_false, if_true]
      exact ih _ bad rest rfl htl hcmd hncom heoc
    · have h1 : m.isEOC = false := not_isCommand_not_isEOC hnc
      have h2 : m.isComment = false := not_isCommand_not_isComment hnc
      simp only [List.cons_append, ccLoop, h1, h2, hnc, chorusAppend, hend,
        Bool.false_eq_true, if_false]
      exact ih _ bad rest rfl htl hcmd hncom heoc

/-- Tablature version of `ccLoop_command_error`. -/
theorem ctLoop_command_error :
    ∀ (mid : List Node) (t : TablatureB) (bad : Node) (rest : List Node),
      t.ended = false →
      (∀ m ∈ mid, m.isComment = true ∨ m.isCommand = false) →
      bad.isCommand = true → bad.isComment = false → bad.isEOT = false →
      ctLoop t (mid ++ bad :: rest) = .error (.commandInTablature bad.lineno) := by
  intro mid
  induction mid with
  | nil =>
    intro t bad rest _ _ hcmd hncom heot
    simp [ctLoop, heot, hncom, hcmd]
  | cons m tl ih =>
    intro t bad rest hend hmid hcmd hncom heot
    have hm := hmid m (List.mem_cons_self m tl)
    have htl : ∀ x ∈ tl, x.isComment = true ∨ x.isCommand = false :=
      fun x hx => hmid x (List.mem_cons_of_mem m hx)
    rcases hm with hcom | hnc
    · have h1 : m.isEOT = false := isComment_not_isEOT hcom
      simp only [List.cons_append, ctLoop, h1, hcom, tabAppend, hend,
        Bool.false_eq_true, if_false, if_true]
      exact ih _ bad rest rfl htl hcmd hncom heot
    · have h1 : m.isEOT = false := not_isCommand_not_isEOT hnc
      have h2 : m.isComment = false := not_isCommand_not_isComment hnc
      simp only [List.cons_append, ctLoop, h1, h2, hnc, tabAppend, hend,
        Bool.false_eq_true, if_false]
      exact ih _ bad rest rfl htl hcmd hncom heot

/-- C6: if, after a `StartOfChorus` (resp. `StartOfTablature`) and before
its end marker, the stream holds only lyric lines, blanks, hash comments
and inline `Comment`s and then a directive of any other kind,
`syntax_analysis` raises the structural "command inside" error carrying
that directive's line number, and the whole parse fails — no document is
returned. -/
theorem c6_command_inside_block (s : Nat) (mid : List Node) (bad : Node) (rest : List Node)
    (hmid : ∀ m ∈ mid, m.isComment = true ∨ m.isCommand = false)
    (hcmd : bad.isCommand = true) (hncom : bad.isComment = false) :
    (bad.isEOC = false →
      syntacticAnalysis (.soc s :: mid ++ bad :: rest) =
        .error (.commandInChorus bad.lineno)) ∧
    (bad.isEOT = false →
      syntacticAnalysis (.sot s :: mid ++ bad :: rest) =
        .error (.commandInTablature bad.lineno)) := by
  constructor
  · intro heoc
    have hcc : consumeChorus (.soc s :: (mid ++ bad :: rest)) =
        .error (.commandInChorus bad.lineno) := by
      simp only [consumeChorus, Node.isSOC, if_true]
      exact ccLoop_command_error mid (chorusInit (.soc s)) bad rest rfl hmid hcmd hncom heoc
    simp [syntacticAnalysis, saLoop, consumeExtra, Node.isExtra, consumeVerse, Node.isLine, hcc]
  · intro heot
    have hct : consumeTablature (.sot s :: (mid ++ bad :: rest)) =
        .error (.commandInTablature bad.lineno) := by
      simp only [consumeTablature, Node.isSOT, if_true]
      exact ctLoop_command_error mid (tabInit (.sot s)) bad rest rfl hmid hcmd hncom heot
    simp [syntacticAnalysis, saLoop, consumeExtra, Node.isExtra, consumeVerse, Node.isLine,
      consumeChorus, Node.isSOC, hct]

/-- C6, witness: a `{define}` directive after one lyric line and one inline
comment inside an open chorus (resp. tablature) aborts the whole parse with
the structural error at line 4. -/
theorem c6_command_inside_block_witness :
    syntacticAnalysis [.soc 1, .line "x" 2, .comment "hi" 3, .unsupported "define" "z" 4] =
      .error (.commandInChorus 4) ∧
    syntacticAnalysis [.sot 1, .line "x" 2, .comment "hi" 3, .unsupported "define" "z" 4] =
      .error (.commandInTablature 4) :=
  ⟨(c6_command_inside_block 1 [.line "x" 2, .comment "hi" 3] (.unsupported "define" "z" 4) []
      (by decide) rfl rfl).1 rfl,
   (c6_command_inside_block 1 [.line "x" 2, .comment "hi" 3] (.unsupported "define" "z" 4) []
      (by decide) rfl rfl).2 rfl⟩

/-! Rendering totality (C9).  `real_init` maps the same fragment list to
both `lyrics` and `chords`, so the two lists always have equal length: the
`diff ≠ 0` branches of `ChordLine.as_pdf` — including the `diff < 0` one
that names the undefined variable `chord` — are unreachable, and the
`lyrics[i]` indexing stays in range. -/

theorem clPdfLoop_isSome :
    ∀ (ks : List (List (Int × String))) (i : Nat) (lys : List String),
      i + ks.length ≤ lys.length → (clPdfLoop ks i lys).isSome = true := by
  intro ks
  induction ks with
  | nil => intro i lys _; rfl
  | cons k kr ih =>
    intro i lys hle
    have hi : i < lys.length := by simp only [List.length_cons] at hle; omega
    have hget : lys[i]? = some lys[i] := List.getElem?_eq_getElem hi
    have hrec := ih (i + 1) lys (by simp only [List.length_cons] at hle; omega)
    simp only [clPdfLoop, hget]
    cases hx : clPdfLoop kr (i + 1) lys with
    | none => rw [hx] at hrec; exact absurd hrec (by simp)
    | some l => simp

theorem chordLineAsPdf_isSome (v : String) (w : Int) :
    (chordLineAsPdf v w).isSome = true := by
  unfold chordLineAsPdf
  simp only [List.length_map, sub_self, lt_self_iff_false, if_false]
  exact clPdfLoop_isSome _ 0 _ (by simp)

theorem nodeAsPdf_isSome (n : Node) (w : Int) : (n.asPdf w).isSome = true := by
  cases n <;> first
    | rfl
    | exact chordLineAsPdf_isSome _ _

theorem seqO_isSome {α : Type} :
    ∀ (l : List (Option α)), (∀ o ∈ l, o.isSome = true) → (seqO l).isSome = true := by
  intro l
  induction l with
  | nil => intro _; rfl
  | cons o t ih =>
    intro h
    have ho := h o (List.mem_cons_self o t)
    have ht := ih fun x hx => h x (List.mem_cons_of_mem o hx)
    cases o with
    | none => exact absurd ho (by simp)
    | some a =>
      simp only [seqO]
      cases hx : seqO t with
      | none => rw [hx] at ht; exact absurd ht (by simp)
      | some l2 => simp

theorem elemAsPdf_isSome (e : Elem) (w : Int) : (Elem.asPdf e w).isSome = true := by
  cases e with
  | node n => exact nodeAsPdf_isSome n w
  | verse v =>
    have h := seqO_isSome (v.lines.map (Node.asPdf · w)) (by
      intro o ho
      rcases List.mem_map.mp ho with ⟨x, _, hx⟩
      exact hx ▸ nodeAsPdf_isSome x w)
    simp only [Elem.asPdf]
    cases hx : seqO (v.lines.map (Node.asPdf · w)) with
    | none => rw [hx] at h; exact absurd h (by simp)
    | some l => simp
  | chorus c =>
    have h := seqO_isSome (c.lines.map (Node.asPdf · w)) (by
      intro o ho
      rcases List.mem_map.mp ho with ⟨x, _, hx⟩
      exact hx ▸ nodeAsPdf_isSome x w)
    simp only [Elem.asPdf]
    cases hx : seqO (c.lines.map (Node.asPdf · w)) with
    | none => rw [hx] at h; exact absurd h (by simp)
    | some l => simp
  | tab t =>
    have h := seqO_isSome (t.lines.map (Node.asPdf · w)) (by
      intro o ho
      rcases List.mem_map.mp ho with ⟨x, _, hx⟩
      exact hx ▸ nodeAsPdf_isSome x w)
    simp only [Elem.asPdf]
    cases hx : seqO (t.lines.map (Node.asPdf · w)) with
    | none => rw [hx] at h; exact absurd h (by simp)
    | some l => simp

/-! The inline-markup side: every node a successful `syntax_analysis` can
place in the document (directly or inside a block) has an `as_html`
method; only the four bare markers lack one, and no consumer ever stores
those in a block or passes them through. -/

theorem isExtra_html {n : Node} (h : n.isExtra = true) : (n.asHtml).isSome = true := by
  cases n <;> simp_all [Node.isExtra, Node.asHtml]

theorem isLine_html {n : Node} (h : n.isLine = true) : (n.asHtml).isSome = true := by
  cases n <;> simp_all [Node.isLine, Node.asHtml]

theorem isComment_html {n : Node} (h : n.isComment = true) : (n.asHtml).isSome = true := by
  cases n <;> simp_all [Node.isComment, Node.asHtml]

theorem not_command_html {n : Node} (h : n.isCommand = false) : (n.asHtml).isSome = true := by
  cases n <;> simp_all [Node.isCommand, Node.asHtml]

theorem verseB_html {v : VerseB} (h : ∀ x ∈ v.lines, x.isLine = true) :
    (Elem.asHtml (.verse v)).isSome = true := by
  have hs := seqO_isSome (v.lines.map Node.asHtml) (by
    intro o ho
    rcases List.mem_map.mp ho with ⟨x, hx, he⟩
    exact he ▸ isLine_html (h x hx))
  simp only [Elem.asHtml]
  cases hx : seqO (v.lines.map Node.asHtml) with
  | none => rw [hx] at hs; exact absurd hs (by simp)
  | some l => simp

theorem chorusB_html {c : ChorusB} (h : ∀ x ∈ c.lines, (x.asHtml).isSome = true) :
    (Elem.asHtml (.chorus c)).isSome = true := by
  have hs := seqO_isSome (c.lines.map Node.asHtml) (by
    intro o ho
    rcases List.mem_map.mp ho with ⟨x, hx, he⟩
    exact he ▸ h x hx)
  simp only [Elem.asHtml]
  cases hx : seqO (c.lines.map Node.asHtml) with
  | none => rw [hx] at hs; exact absurd hs (by simp)
  | some l => simp

theorem tabB_html {t : TablatureB} (h : ∀ x ∈ t.lines, (x.asHtml).isSome = true) :
    (Elem.asHtml (.tab t)).isSome = true := by
  have hs := seqO_isSome (t.lines.map Node.asHtml) (by
    intro o ho
    rcases List.mem_map.mp ho with ⟨x, hx, he⟩
    exact he ▸ h x hx)
  simp only [Elem.asHtml]
  cases hx : seqO (t.lines.map Node.asHtml) with
  | none => rw [hx] at hs; exact absurd hs (by simp)
  | some l => simp

theorem verseAppend_ok {v : VerseB} {i : Node} {v2 : VerseB}
    (h : verseAppend v i = .ok v2) : v2.lines = v.lines ++ [i] ∧ v2.ended = v.ended := by
  unfold verseAppend at h
  split at h
  · split at h <;> exact absurd h (by simp)
  · cases h; exact ⟨rfl, rfl⟩

theorem chorusAppend_ok {c : ChorusB} {i : Node} {c2 : ChorusB}
    (h : chorusAppend c i = .ok c2) :
    c2.lines = c.lines ++ [i] ∧ c2.ended = c.ended := by
  unfold chorusAppend at h
  split at h
  · split at h <;> exact absurd h (by simp)
  · cases h; exact ⟨rfl, rfl⟩

theorem tabAppend_ok {t : TablatureB} {i : Node} {t2 : TablatureB}
    (h : tabAppend t i = .ok t2) :
    t2.lines = t.lines ++ [i] ∧ t2.ended = t.ended := by
  unfold tabAppend at h
  split at h
  · split at h <;> exact absurd h (by simp)
  · cases h; exact ⟨rfl, rfl⟩

theorem consumeExtra_good :
    ∀ (l : List Node) (es : List Elem) (r : List Node), consumeExtra l = (es, r) →
      ∀ e ∈ es, (Elem.asHtml e).isSome = true := by
  intro l
  induction l with
  | nil => intro es r h e he; cases h; exact absurd he (by simp)
  | cons n t ih =>
    intro es r h e he
    by_cases hx : n.isExtra = true
    · cases hct : consumeExtra t with
      | mk es2 r2 =>
        have heq : consumeExtra (n :: t) = (.node n :: es2, r2) := by
          simp [consumeExtra, hx, hct]
        rw [heq] at h
        simp only [Prod.mk.injEq] at h
        obtain ⟨h1, h2⟩ := h
        subst h1
        rcases List.mem_cons.mp he with h1 | h2
        · exact h1 ▸ isExtra_html hx
        · exact ih es2 r2 hct e h2
    · simp only [consumeExtra, hx, Bool.false_eq_true, if_false, Prod.mk.injEq] at h
      rcases h with ⟨h1, h2⟩
      subst h1
      exact absurd he (by simp)

theorem cvLoop_lines :
    ∀ (l : List Node) (v v2 : VerseB) (r : List Node), cvLoop v l = .ok (v2, r) →
      (∀ x ∈ v.lines, x.isLine = true) → ∀ x ∈ v2.lines, x.isLine = true := by
  intro l
  induction l with
  | nil => intro v v2 r h hv; cases h; exact hv
  | cons i t ih =>
    intro v v2 r h hv
    by_cases hs : (i.isEmptyLike || i.isCommand) = true
    · simp only [cvLoop, hs, if_true] at h
      cases h
      exact hv
    · simp only [cvLoop, hs, Bool.false_eq_true, if_false] at h
      cases hva : verseAppend v i with
      | error e => rw [hva] at h; exact absurd h (by simp)
      | ok v3 =>
        rw [hva] at h
        have hl := (verseAppend_ok hva).1
        have hline : i.isLine = true := by
          revert hs
          cases i <;> simp [Node.isEmptyLike, Node.isCommand, Node.isLine]
        refine ih v3 v2 r h ?_
        intro x hx
        rw [hl] at hx
        rcases List.mem_append.mp hx with h1 | h2
        · exact hv x h1
        · rcases List.mem_singleton.mp h2 with rfl
          exact hline

theorem consumeVerse_good :
    ∀ (l : List Node) (es : List Elem) (r : List Node), consumeVerse l = .ok (es, r) →
      ∀ e ∈ es, (Elem.asHtml e).isSome = true := by
  intro l es r h e he
  cases l with
  | nil => cases h; exact absurd he (by simp)
  | cons n t =>
    by_cases hn : n.isLine = true
    · cases hcv : cvLoop ⟨[n], false⟩ t with
      | error e2 =>
        have hceq : consumeVerse (n :: t) = .error e2 := by
          simp [consumeVerse, hn, verseAppend, verseInit, hcv]
        rw [hceq] at h
        exact absurd h (by simp)
      | ok p =>
        obtain ⟨v2, r2⟩ := p
        have hceq : consumeVerse (n :: t) = .ok ([.verse (verseEnd v2)], r2) := by
          simp [consumeVerse, hn, verseAppend, verseInit, hcv]
        rw [hceq] at h
        simp only [Except.ok.injEq, Prod.mk.injEq] at h
        obtain ⟨h1, h2⟩ := h
        subst h1
        rcases List.mem_singleton.mp he with rfl
        refine verseB_html ?_
        intro x hx
        refine cvLoop_lines t ⟨[n], false⟩ v2 r2 hcv ?_ x hx
        intro y hy
        rcases List.mem_singleton.mp hy with rfl
        exact hn
    · simp only [consumeVerse, hn, Bool.false_eq_true, if_false] at h
      cases h
      exact absurd he (by simp)

theorem ccLoop_good :
    ∀ (l : List Node) (c : ChorusB) (es : List Elem) (r : List Node),
      ccLoop c l = .ok (es, r) →
      (∀ x ∈ c.lines, (x.asHtml).isSome = true) →
      ∀ e ∈ es, (Elem.asHtml e).isSome = true := by
  intro l
  induction l with
  | nil =>
    intro c es r h hc e he
    cases h
    rcases List.mem_singleton.mp he with rfl
    exact chorusB_html hc
  | cons i t ih =>
    intro c es r h hc e he
    by_cases h1 : i.isEOC = true
    · simp only [ccLoop, h1, if_true] at h
      cases h
      rcases List.mem_singleton.mp he with rfl
      exact chorusB_html hc
    · by_cases h2 : i.isComment = true
      · simp only [ccLoop, h1, Bool.false_eq_true, if_false, h2, if_true] at h
        cases hca : chorusAppend c i with
        | error e2 => rw [hca] at h; exact absurd h (by simp)
        | ok c2 =>
          rw [hca] at h
          refine ih c2 es r h ?_ e he
          intro x hx
          rw [(chorusAppend_ok hca).1] at hx
          rcases List.mem_append.mp hx with ha | hb
          · exact hc x ha
          · rcases List.mem_singleton.mp hb with rfl
            exact isComment_html h2
      · by_cases h3 : i.isCommand = true
        · simp only [ccLoop, h1, h2, h3, Bool.false_eq_true, if_false, if_true] at h
          exact absurd h (by simp)
        · simp only [ccLoop, h1, h2, h3, Bool.false_eq_true, if_false] at h
          cases hca : chorusAppend c i with
          | error e2 => rw [hca] at h; exact absurd h (by simp)
          | ok c2 =>
            rw [hca] at h
            refine ih c2 es r h ?_ e he
            intro x hx
            rw [(chorusAppend_ok hca).1] at hx
            rcases List.mem_append.mp hx with ha | hb
            · exact hc x ha
            · rcases List.mem_singleton.mp hb with rfl
              exact not_command_html (by simpa using h3)

theorem consumeChorus_good :
    ∀ (l : List Node) (es : List Elem) (r : List Node), consumeChorus l = .ok (es, r) →
      ∀ e ∈ es, (Elem.asHtml e).isSome = true := by
  intro l es r h e he
  cases l with
  | nil => cases h; exact absurd he (by simp)
  | cons n t =>
    by_cases hn : n.isSOC = true
    · simp only [consumeChorus, hn, if_true] at h
      exact ccLoop_good t (chorusInit n) es r h (by intro x hx; exact absurd hx (by simp [chorusInit])) e he
    · simp only [consumeChorus, hn, Bool.false_eq_true, if_false] at h
      cases h
      exact absurd he (by simp)

theorem ctLoop_good :
    ∀ (l : List Node) (t : TablatureB) (es : List Elem) (r : List Node),
      ctLoop t l = .ok (.elems es, r) →
      (∀ x ∈ t.lines, (x.asHtml).isSome = true) →
      ∀ e ∈ es, (Elem.asHtml e).isSome = true := by
  intro l
  induction l with
  | nil =>
    intro t es r h _ e he
    cases h
  | cons i tl ih =>
    intro t es r h hc e he
    by_cases h1 : i.isEOT = true
    · simp only [ctLoop, h1, if_true] at h
      cases h
      rcases List.mem_singleton.mp he with rfl
      exact tabB_html hc
    · by_cases h2 : i.isComment = true
      · simp only [ctLoop, h1, Bool.false_eq_true, if_false, h2, if_true] at h
        cases hta : tabAppend t i with
        | error e2 => rw [hta] at h; exact absurd h (by simp)
        | ok t2 =>
          rw [hta] at h
          refine ih t2 es r h ?_ e he
          intro x hx
          rw [(tabAppend_ok hta).1] at hx
          rcases List.mem_append.mp hx with ha | hb
          · exact hc x ha
          · rcases List.mem_singleton.mp hb with rfl
            exact isComment_html h2
      · by_cases h3 : i.isCommand = true
        · simp only [ctLoop, h1, h2, h3, Bool.false_eq_true, if_false, if_true] at h
          exact absurd h (by simp)
        · simp only [ctLoop, h1, h2, h3, Bool.false_eq_true, if_false] at h
          cases hta : tabAppend t i with
          | error e2 => rw [hta] at h; exact absurd h (by simp)
          | ok t2 =>
            rw [hta] at h
            refine ih t2 es r h ?_ e he
            intro x hx
            rw [(tabAppend_ok hta).1] at hx
            rcases List.mem_append.mp hx with ha | hb
            · exact hc x ha
            · rcases List.mem_singleton.mp hb with rfl
              exact not_command_html (by simpa using h3)

theorem consumeTablature_good :
    ∀ (l : List Node) (es : List Elem) (r : List Node),
      consumeTablature l = .ok (.elems es, r) →
      ∀ e ∈ es, (Elem.asHtml e).isSome = true := by
  intro l es r h e he
  cases l with
  | nil => cases h; exact absurd he (by simp)
  | cons n t =>
    by_cases hn : n.isSOT = true
    · simp only [consumeTablature, hn, if_true] at h
      exact ctLoop_good t (tabInit n) es r h (by intro x hx; exact absurd hx (by simp [tabInit])) e he
    · simp only [consumeTablature, hn, Bool.false_eq_true, if_false] at h
      cases h
      exact absurd he (by simp)

theorem saLoop_good :
    ∀ (fuel : Nat) (input : List Node) (doc : List Elem), saLoop fuel input = .ok doc →
      ∀ e ∈ doc, (Elem.asHtml e).isSome = true := by
  intro fuel
  induction fuel with
  | zero => intro input doc h; exact absurd h (by simp [saLoop])
  | succ n ih =>
    intro input doc h e he
    cases input with
    | nil => cases h; exact absurd he (by simp)
    | cons x t =>
      cases hce : consumeExtra (x :: t) with
      | mk e1 r1 =>
        cases hcv : consumeVerse r1 with
        | error e2 => simp [saLoop, hce, hcv] at h
        | ok p1 =>
          obtain ⟨v1, r2⟩ := p1
          cases hcc : consumeChorus r2 with
          | error e2 => simp [saLoop, hce, hcv, hcc] at h
          | ok p2 =>
            obtain ⟨c1, r3⟩ := p2
            cases hct : consumeTablature r3 with
            | error e2 => simp [saLoop, hce, hcv, hcc, hct] at h
            | ok p3 =>
              obtain ⟨tout, r4⟩ := p3
              cases tout with
              | bare tb => simp [saLoop, hce, hcv, hcc, hct] at h
              | elems t1 =>
                by_cases hlen : r4.length = t.length + 1
                · simp [saLoop, hce, hcv, hcc, hct, hlen] at h
                · cases hsa : saLoop n r4 with
                  | error e2 => simp [saLoop, hce, hcv, hcc, hct, hlen, hsa] at h
                  | ok rest =>
                    have heval : saLoop (n + 1) (x :: t) =
                        .ok (e1 ++ v1 ++ c1 ++ t1 ++ rest) := by
                      simp [saLoop, hce, hcv, hcc, hct, hlen, hsa]
                    rw [heval] at h
                    injection h with h2
                    subst h2
                    rcases List.mem_append.mp he with h4 | h5
                    rcases List.mem_append.mp h4 with h6 | h7
                    rcases List.mem_append.mp h6 with h8 | h9
                    rcases List.mem_append.mp h8 with h10 | h11
                    · exact consumeExtra_good (x :: t) e1 r1 hce e h10
                    · exact consumeVerse_good r1 v1 r2 hcv e h11
                    · exact consumeChorus_good r2 c1 r3 hcc e h9
                    · exact consumeTablature_good r3 t1 r4 hct e h7
                    · exact ih r4 rest hsa e h5

/-- C9: for every document returned without error by `syntax_analysis` and
for every width, both rendering operations complete without raising on
every element: `as_html` is defined for every node the assembler can place
in the document, and every branch of `ChordLine.as_pdf` is either
unreachable (the `diff ≠ 0` branches, since the chord and lyric fragment
lists always have equal length) or executes without error. -/
theorem c9_render_total (input : List Node) (doc : List Elem)
    (h : syntacticAnalysis input = .ok doc) :
    ∀ e ∈ doc, ∀ width : Int,
      (Elem.asHtml e).isSome = true ∧ (Elem.asPdf e width).isSome = true :=
  fun e he width => ⟨saLoop_good (input.length + 1) input doc h e he, elemAsPdf_isSome e width⟩

/-- C9, witness: the one-verse document of the input `"x"`, rendered at
width 5. -/
theorem c9_render_total_witness :
    (Elem.asHtml (.verse ⟨[.line "x" 1], true⟩)).isSome = true ∧
    (Elem.asPdf (.verse ⟨[.line "x" 1], true⟩) 5).isSome = true :=
  c9_render_total [.line "x" 1] [.verse ⟨[.line "x" 1], true⟩] (by decide)
    (.verse ⟨[.line "x" 1], true⟩) (by decide) 5

/-- C7, counterexample: a blank line's inline rendering is `"\n"`, not the
empty string. -/
theorem c7_counterexample :
    Node.asHtml (.empty 1) = some "\n" ∧ (some "\n" : Option String) ≠ some "" := by
  exact ⟨rfl, by decide⟩

/-- C7, amended: a blank line renders inline to a single newline `"\n"`,
while `HashComment` and `UnsupportedDirective` nodes render to the empty
string. -/
theorem c7_amended (n1 n2 n3 : Nat) (t c v : String) :
    Node.asHtml (.empty n1) = some "\n" ∧ Node.asHtml (.hash t n2) = some "" ∧
    Node.asHtml (.unsupported c v n3) = some "" :=
  ⟨rfl, rfl, rfl⟩

/-- C8, counterexample: two strings whose visible lyric length is below the
width yet `break_chordline` does not return them unchanged — `" a"` loses
its leading space to the final `strip`, and in `"[C x]y"` the chord
annotation spans the space the splitter cuts at, so the fragment measures
do not add up and the line is broken in two. -/
theorem c8_counterexample :
    ((clen " a" : Int) < 5 ∧ break_chordline " a" 5 ≠ [" a"]) ∧
    ((clen "[C x]y" : Int) < 2 ∧ break_chordline "[C x]y" 2 ≠ ["[C x]y"]) := by
  exact ⟨⟨by decide, by decide⟩, ⟨by decide, by decide⟩⟩

/-- C8, amended: for every width `w` and every non-empty string `v` with no
leading or trailing whitespace in which every chord bracket opened inside a
space-delimited word is closed inside that same word, if the visible lyric
length of `v` (its `clen`, the length with bracketed chord markup removed)
is strictly below `w`, then `break_chordline v w` returns the one-element
list `[v]` unchanged. -/
theorem c8_amended (v : String) (width : Int)
    (hne : v ≠ "")
    (hstrip : pyStrip v = v)
    (hclosed : ∀ w ∈ pySplitCh ' ' v.data, closedGo false w = true)
    (hlen : (clen v : Int) < width) :
    break_chordline v width = [v] := by
  unfold break_chordline
  cases hws : pySplitCh ' ' v.data with
  | nil => exact absurd hws (pySplitCh_ne_nil ' ' v.data)
  | cons w0 rest =>
    have hjoin : joinSp (w0 :: rest) = v.data := by
      rw [← hws]; exact joinSp_pySplit v.data
    have hw0 : closedGo false w0 = true :=
      hclosed w0 (by rw [hws]; exact List.mem_cons_self w0 rest)
    have hrest : ∀ x ∈ rest, closedGo false x = true :=
      fun x hx => hclosed x (by rw [hws]; exact List.mem_cons_of_mem w0 hx)
    have hlen2 : (clenL (joinSp (w0 :: rest)) : Int) < width := by
      rw [hjoin]; exact hlen
    have hfold : List.foldl (wrapStep clenL width) [] (w0 :: rest) = [v.data] := by
      show List.foldl (wrapStep clenL width) (wrapStep clenL width [] w0) rest = [v.data]
      rw [show wrapStep clenL width [] w0 = [w0] from rfl,
        wrapFold_single rest w0 width hw0 hrest hlen2, hjoin]
    rw [hfold]
    have hdata : pyStripL v.data = v.data := congrArg String.data hstrip
    have hnil : ¬v.data = [] := by
      intro h
      apply hne
      obtain ⟨d⟩ := v
      simp only at h
      rw [h]
    simp [stripKeep, hdata, hnil]

/-- C8, amended, witness: `"[C]Hello [G]world"` at width 12 (visible length
11) comes back as the unchanged one-element list. -/
theorem c8_amended_witness : break_chordline "[C]Hello [G]world" 12 = ["[C]Hello [G]world"] :=
  c8_amended "[C]Hello [G]world" 12 (by decide) (by decide) (by decide) (by decide)

end Chords
